import Mathlib

/-!
Shallow embedding of `trinitum/go-filesort` (`filesort.go`).

The repository implements an external sort: records are written to a session
(`FileSort.Sort`), buffered in memory, spilled to temporary files in stably
sorted runs once the buffer reaches `bufferMax`, and after `Close` the runs
are merged by a recursive binary merge tree (`newMergeReader`) and delivered
through `Read`, with `nil` as the end-of-stream sentinel.

The embedding below models:
* records as values of an abstract type `α`; since the Go code passes records
  as `interface{}` values where `nil` is also the stream sentinel, the model
  carries an explicit `isNil : α → Bool` predicate marking which record values
  are Go-`nil` (instantiated with `fun _ => false` for sessions whose records
  are never nil, and with `Option.isNone` when nil records matter);
* the user comparator as `less : α → α → Bool`;
* fallible collaborators (temp dir/file creation, `Encoder.Encode`,
  `Encoder.Close`, `os.Open`) by oracles giving the result of each call;
* Go-level control flow outcomes by `GoResult`: normal return, error return,
  runtime panic, and non-termination.
-/

namespace FileSortGo

/-- Outcome of a modelled Go computation: normal result, returned error,
runtime panic (which, in a goroutine without recover, aborts the whole
process), or non-termination. -/
inductive GoResult (ε ρ : Type) : Type where
  | ok : ρ → GoResult ε ρ
  | err : ε → GoResult ε ρ
  | panicked : GoResult ε ρ
  | diverged : GoResult ε ρ
  deriving DecidableEq, Repr

/-- The wrapped error values `filesort.go` can store in `ps.err`.
`tempDir` models the wrapping at line 108 ties to `ioutil.TempDir` failure;
`resource` models line 139 ties to `ioutil.TempFile` failure (unreachable in
the code as written, see `flushBuffer` below); `codec` models line 144
(`Encode` failure); `encClose` models line 150 (`Encoder.Close` failure). -/
inductive FsError (ε : Type) : Type where
  | tempDir : ε → FsError ε
  | resource : ε → FsError ε
  | codec : ε → FsError ε
  | encClose : ε → FsError ε
  deriving DecidableEq, Repr

/-- Results of the fallible external calls a session performs:
`tempDirErr` is the result of the single `ioutil.TempDir` call (line 106),
`tempFileErr k` the result of `ioutil.TempFile` for the k-th spill
(line 136), `encodeErr k` the result of the k-th `Encoder.Encode` call of the
session counted across spills (line 143), `encCloseErr k` the result of
`Encoder.Close` for the k-th spill (line 149), and `openErr k` the result of
`os.Open` for the k-th spill file during merge (line 180).
`none` means the call succeeded. -/
structure Oracles (ε : Type) : Type where
  tempDirErr : Option ε
  tempFileErr : Nat → Option ε
  encodeErr : Nat → Option ε
  encCloseErr : Nat → Option ε
  openErr : Nat → Option ε

/-- Oracles for a run in which every external call succeeds. -/
def okOracles : Oracles ε :=
  { tempDirErr := none
    tempFileErr := fun _ => none
    encodeErr := fun _ => none
    encCloseErr := fun _ => none
    openErr := fun _ => none }

/-- Insert `x` into `acc` after every element `y` with `less x y = false`.
Auxiliary step of `stableSort`. -/
def insertLe (less : α → α → Bool) (x : α) : List α → List α
  | [] => [x]
  | y :: ys => if less x y then x :: y :: ys else y :: insertLe less x ys

/-- Model of `sort.SliceStable(ps.buffer, ...)` (lines 118 and 129): a stable
sort by the user comparator.  `sort.SliceStable`'s documented contract (sorted
output, equal elements keep their relative order) determines the output
uniquely for a valid comparator, so insertion sort from the left — which
places each later element after all earlier elements not above it — is a
faithful model. -/
def stableSort (less : α → α → Bool) (l : List α) : List α :=
  l.foldl (fun acc x => insertLe less x acc) []

/-- Inner loop of `mergeRuns`: merging `a :: l` (left child, lookahead `a`)
against the right child's stream, where `fl` merges the left tail against a
right stream.  Mirrors the closure of `newMergeReader` (lines 244-273):
`less a b = true` emits the left lookahead, otherwise (including ties) the
right lookahead is emitted. -/
def mergeGo (less : α → α → Bool) (a : α) (l : List α) (fl : List α → List α) :
    List α → List α
  | [] => a :: l
  | b :: r => if less a b then a :: fl (b :: r) else b :: mergeGo less a l fl r

/-- The record stream produced by one two-way merge node of `newMergeReader`
(lines 214-275), as a function of the streams of its two children.  The
constructor shortcuts (line 237: left child empty means the node is the right
child; an empty right lookahead means the left stream passes through) and the
loop (lines 244-273, including the child shift at lines 261-265) give exactly
the equations `mergeRuns_nil_left`, `mergeRuns_nil_right`,
`mergeRuns_cons_cons` below. -/
def mergeRuns (less : α → α → Bool) : List α → List α → List α
  | [], r => r
  | a :: l, r => mergeGo less a l (mergeRuns less l) r

theorem mergeRuns_nil_left (less : α → α → Bool) (r : List α) :
    mergeRuns less [] r = r := rfl

theorem mergeRuns_nil_right (less : α → α → Bool) (l : List α) :
    mergeRuns less l [] = l := by
  cases l <;> rfl

theorem mergeRuns_cons_cons (less : α → α → Bool) (a b : α) (l r : List α) :
    mergeRuns less (a :: l) (b :: r) =
      if less a b then a :: mergeRuns less l (b :: r)
      else b :: mergeRuns less (a :: l) r := rfl

/-- Model of `newMergeReader` (lines 214-232): the stream of the merge tree
built over the streams `rs` of the leaf readers.  A singleton list is its own
stream; two readers form one merge node; a longer list is split at
`length / 2` and each half is built recursively.  The Go recursion has no
case for an empty reader slice: `n = 0/2 = 0` makes it call itself on the
same empty slice forever, so the model takes fuel and yields `none` when the
fuel runs out — for a nonempty `rs` enough fuel always produces `some`
(`newMergeReaderF_ok`), while for `rs = []` every fuel yields `none`. -/
def newMergeReaderF (less : α → α → Bool) : Nat → List (List α) → Option (List α)
  | 0, _ => none
  | fuel + 1, rs =>
    match rs with
    | [r] => some r
    | [r0, r1] => some (mergeRuns less r0 r1)
    | _ =>
      let n := rs.length / 2
      match newMergeReaderF less fuel (rs.take n), newMergeReaderF less fuel (rs.drop n) with
      | some l, some r => some (mergeRuns less l r)
      | _, _ => none

/-- The record stream a reader actually delivers, given the record values
backing it.  `sliceReader.Next` (lines 164-172) returns the stored value as
is — a stored nil is indistinguishable from the end-of-slice nil — and
`fileReader.Next` (lines 191-204) closes the file and reports end of stream
as soon as the decoder yields nil; so every reader truncates its backing
sequence at the first nil value, and nil values never travel further up the
merge tree. -/
def truncAt (isNil : α → Bool) : List α → List α
  | [] => []
  | v :: rest => if isNil v then [] else v :: truncAt isNil rest

/-- First failure among the results of calls `k, k+1, ..., k+n-1` of the
call-result oracle `f`. -/
def firstErr (f : Nat → Option ε) : Nat → Nat → Option ε
  | _, 0 => none
  | k, n + 1 =>
    match f k with
    | some e => some e
    | none => firstErr f (k + 1) n

/-- Model of `FileSort.flushBuffer` (lines 135-153) acting on the sorted
buffer `buffer`, where `tf` is the result of this spill's `ioutil.TempFile`
call, `encodeErr` the per-call `Encode` oracle with `k` the index of the
first `Encode` call this spill will make, and `cl` the result of this spill's
`Encoder.Close` call.  Note the bug kept faithfully: line 137 evaluates
`file.Name()` before line 138 checks the `TempFile` error, so a temp-file
creation failure dereferences a nil `*os.File` and panics; the wrapped
`resource` error of line 139 is unreachable. -/
def flushBuffer (tf : Option ε) (encodeErr : Nat → Option ε) (k : Nat)
    (cl : Option ε) (buffer : List α) : GoResult (FsError ε) Unit :=
  match tf with
  | some _ => .panicked
  | none =>
    match firstErr encodeErr k buffer.length with
    | some e => .err (.codec e)
    | none =>
      match cl with
      | some e => .err (.encClose e)
      | none => .ok ()

/-- State of the sort worker goroutine of `FileSort.sort` (lines 105-133):
the raw in-memory buffer, the contents of the spill files written so far (in
chronological order; each file holds one stably sorted run), the value stored
in the `ps.err` cell (which also tracks the loop-local `err` variable — both
become non-nil together and errors are never overwritten because an erroring
loop only drains), the number of `Encode` calls made so far, and the number
of spills attempted so far. -/
structure SortSt (ε α : Type) : Type where
  buf : List α
  files : List (List α)
  errCell : Option (FsError ε)
  encCalls : Nat
  spills : Nat
  deriving Repr

/-- Worker state when the loop of `sort` starts: empty buffer and file list;
a failed `ioutil.TempDir` call (lines 106-109) has already stored the wrapped
error, which makes the loop drain every record. -/
def initSt (oc : Oracles ε) : SortSt ε α :=
  { buf := []
    files := []
    errCell := oc.tempDirErr.map FsError.tempDir
    encCalls := 0
    spills := 0 }

/-- The record-consuming loop of `FileSort.sort` (lines 110-124) applied to
the sequence of records that entered the input channel.  With an error
recorded the loop only drains (lines 112-114).  Otherwise the record is
buffered and, once the buffer size reaches `maxN` (line 117), the buffer is
stably sorted and flushed; a flush failure is stored in the error cell
(lines 119-122).  After a failed flush the Go buffer may keep its records
(encode failure) or have been cleared (encoder-close failure); the model
keeps the sorted records — the content is irrelevant because an error makes
the session skip the merge phase, which is the only consumer of the buffer. -/
def sortSteps (less : α → α → Bool) (maxN : Nat) (oc : Oracles ε) :
    List α → SortSt ε α → GoResult (FsError ε) (SortSt ε α)
  | [], st => .ok st
  | v :: rest, st =>
    if st.errCell.isSome then
      sortSteps less maxN oc rest st
    else
      let buf := st.buf ++ [v]
      if maxN ≤ buf.length then
        let sorted := stableSort less buf
        match flushBuffer (oc.tempFileErr st.spills) oc.encodeErr st.encCalls
            (oc.encCloseErr st.spills) sorted with
        | .ok _ =>
          sortSteps less maxN oc rest
            { buf := []
              files := st.files ++ [sorted]
              errCell := none
              encCalls := st.encCalls + sorted.length
              spills := st.spills + 1 }
        | .err e =>
          sortSteps less maxN oc rest
            { st with buf := sorted, errCell := some e, spills := st.spills + 1 }
        | .panicked => .panicked
        | .diverged => .diverged
      else
        sortSteps less maxN oc rest { st with buf := buf }

/-- One full session: the records of `input` are written and the session is
closed; the result is the pair of (records delivered through the output
channel before it closed, final content of the `ps.err` cell).  `Read`
(lines 326-334) hands out the delivered records one by one and, at the
closed (nil-yielding) channel, returns the stored error if any, otherwise a
clean end of stream; so `.ok (out, none)` means the reader sees `out`
followed by a clean end of stream, and `.ok (out, some e)` means the reader
sees `out` and then the error `e`.

Structure mirrors `sort` (lines 125-132) and `merge` (lines 277-305): an
error recorded during the loop closes the output immediately; otherwise the
residual buffer is stably sorted and the merge phase runs, with the buffer
reader first (line 280-282) followed by one reader per spill file; a failing
`os.Open` for any spill file panics (line 286), which kills the worker
goroutine and the process; every reader truncates at its first nil record
(`truncAt`); the merge tree is `newMergeReaderF`, whose fuel
`readers.length + 1` is enough for every nonempty reader list while an empty
reader list makes the Go recursion run forever (modelled as `.diverged`). -/
def runSession (isNil : α → Bool) (less : α → α → Bool) (maxN : Nat)
    (oc : Oracles ε) (input : List α) :
    GoResult (FsError ε) (List α × Option (FsError ε)) :=
  match sortSteps less maxN oc input (initSt oc) with
  | .ok st =>
    if st.errCell.isSome then .ok ([], st.errCell)
    else
      let residue := stableSort less st.buf
      let readers :=
        ((if residue.isEmpty then [] else [residue]) ++ st.files).map (truncAt isNil)
      match firstErr oc.openErr 0 st.files.length with
      | some _ => .panicked
      | none =>
        match newMergeReaderF less (readers.length + 1) readers with
        | none => .diverged
        | some out => .ok (out, none)
  | .err e => .err e
  | .panicked => .panicked
  | .diverged => .diverged

/-- Model of `FileSort.Sort` (lines 315-321), the public write: with an error
already recorded it returns that error without sending the record to the
input channel; otherwise the record is enqueued and nil is returned.  Result
is (records in the input channel afterwards, error returned to the caller). -/
def sortCall (errCell : Option (FsError ε)) (queued : List α) (v : α) :
    List α × Option (FsError ε) :=
  match errCell with
  | some e => (queued, some e)
  | none => (queued ++ [v], none)

/-- Go's `close` builtin on the input channel, whose state is its closed
flag: closing an already-closed channel panics at runtime; otherwise the
channel is marked closed. -/
def closeChan (closed : Bool) : GoResult Unit Bool :=
  if closed then .panicked else .ok true

/-- Model of `FileSort.Close` (lines 309-312): it runs `close(ps.in)` and
returns nil.  The result carries (new closed flag of the input channel,
error value returned to the caller). -/
def fsCloseM (inClosed : Bool) : GoResult Unit (Bool × Option Unit) :=
  match closeChan inClosed with
  | .ok c => .ok (c, none)
  | .err e => .err e
  | .panicked => .panicked
  | .diverged => .diverged

/-- Asymmetry of a comparator: a record strictly below another is never also
strictly above it. -/
def Asym (less : α → α → Bool) : Prop :=
  ∀ a b, less a b = true → less b a = false

/-- A valid strict weak order, the contract the spec imposes on the user
comparator: irreflexive, transitive, and with transitive incomparability. -/
structure IsStrictWeakOrder (less : α → α → Bool) : Prop where
  irrefl : ∀ a, less a a = false
  lt_trans : ∀ a b c, less a b = true → less b c = true → less a c = true
  incomp_trans : ∀ a b c, less a b = false → less b a = false →
    less b c = false → less c b = false → less a c = false ∧ less c a = false

theorem IsStrictWeakOrder.asym {less : α → α → Bool}
    (h : IsStrictWeakOrder less) : Asym less := by
  intro a b hab
  by_contra hba
  rw [Bool.not_eq_false] at hba
  have := h.lt_trans a b a hab hba
  rw [h.irrefl a] at this
  exact Bool.false_ne_true this

theorem IsStrictWeakOrder.nle_trans {less : α → α → Bool}
    (h : IsStrictWeakOrder less) {a b c : α}
    (hba : less b a = false) (hcb : less c b = false) : less c a = false := by
  by_contra hca
  rw [Bool.not_eq_false] at hca
  cases hab : less a b with
  | true =>
    have := h.lt_trans c a b hca hab
    rw [hcb] at this
    exact Bool.false_ne_true this
  | false =>
    cases hbc : less b c with
    | true =>
      have := h.lt_trans b c a hbc hca
      rw [hba] at this
      exact Bool.false_ne_true this
    | false =>
      have := (h.incomp_trans a b c hab hba hbc hcb).2
      rw [hca] at this
      exact Bool.false_ne_true this.symm

theorem insertLe_perm (less : α → α → Bool) (x : α) :
    ∀ l : List α, (insertLe less x l).Perm (x :: l)
  | [] => List.Perm.refl _
  | y :: ys => by
    simp only [insertLe]
    by_cases h : less x y = true
    · simp [h]
    · rw [Bool.not_eq_true] at h
      simp only [h, if_false]
      exact ((insertLe_perm less x ys).cons y).trans (List.Perm.swap x y ys)

theorem insertLe_head (less : α → α → Bool) (x : α) :
    ∀ (l : List α) (z : α), (insertLe less x l).head? = some z →
      z = x ∨ l.head? = some z
  | [], z => by
    intro h
    simp only [insertLe, List.head?] at h
    exact Or.inl (Option.some_injective _ h).symm
  | y :: ys, z => by
    intro h
    simp only [insertLe] at h
    by_cases hxy : less x y = true
    · rw [if_pos hxy] at h
      exact Or.inl (Option.some_injective _ h).symm
    · rw [Bool.not_eq_true] at hxy
      rw [hxy] at h
      simp only [Bool.false_eq_true, if_false, List.head?] at h
      exact Or.inr h

theorem insertLe_chain {less : α → α → Bool} (hasym : Asym less) (x : α) :
    ∀ l : List α, List.Chain' (fun a b => less b a = false) l →
      List.Chain' (fun a b => less b a = false) (insertLe less x l)
  | [], _ => List.chain'_singleton x
  | y :: ys, hl => by
    simp only [insertLe]
    by_cases hxy : less x y = true
    · rw [if_pos hxy]
      exact List.chain'_cons'.mpr ⟨fun z hz => by
        simp only [List.head?] at hz
        cases hz
        exact hasym x y hxy, hl⟩
    · rw [Bool.not_eq_true] at hxy
      simp only [hxy, Bool.false_eq_true, if_false]
      have hys := (List.chain'_cons'.mp hl).2
      refine List.chain'_cons'.mpr ⟨?_, insertLe_chain hasym x ys hys⟩
      intro z hz
      rcases insertLe_head less x ys z hz with rfl | hmem
      · exact hxy
      · exact (List.chain'_cons'.mp hl).1 z hmem

theorem stableSort_perm (less : α → α → Bool) (l : List α) :
    (stableSort less l).Perm l := by
  suffices h : ∀ (l acc : List α),
      (List.foldl (fun acc x => insertLe less x acc) acc l).Perm (acc ++ l) by
    simpa using h l []
  intro l
  induction l with
  | nil => intro acc; simp
  | cons v rest ih =>
    intro acc
    simp only [List.foldl_cons]
    refine (ih (insertLe less v acc)).trans ?_
    refine (List.Perm.append_right rest ((insertLe_perm less v acc))).trans ?_
    exact (List.perm_middle).symm

theorem stableSort_chain {less : α → α → Bool} (hasym : Asym less) (l : List α) :
    List.Chain' (fun a b => less b a = false) (stableSort less l) := by
  suffices h : ∀ (l acc : List α),
      List.Chain' (fun a b => less b a = false) acc →
      List.Chain' (fun a b => less b a = false)
        (List.foldl (fun acc x => insertLe less x acc) acc l) by
    exact h l [] List.chain'_nil
  intro l
  induction l with
  | nil => intro acc hacc; simpa using hacc
  | cons v rest ih =>
    intro acc hacc
    simp only [List.foldl_cons]
    exact ih (insertLe less v acc) (insertLe_chain hasym v acc hacc)

theorem mergeRuns_perm (less : α → α → Bool) :
    ∀ l r : List α, (mergeRuns less l r).Perm (l ++ r)
  | [], r => by simp [mergeRuns_nil_left]
  | a :: l, r => by
    induction r with
    | nil => simp [mergeRuns_nil_right]
    | cons b r ihr =>
      rw [mergeRuns_cons_cons]
      by_cases h : less a b = true
      · rw [if_pos h]
        exact (mergeRuns_perm less l (b :: r)).cons a
      · rw [Bool.not_eq_true] at h
        simp only [h, Bool.false_eq_true, if_false]
        refine (ihr.cons b).trans ?_
        exact (List.perm_middle).symm

theorem mergeRuns_head (less : α → α → Bool) :
    ∀ (l r : List α) (z : α), (mergeRuns less l r).head? = some z →
      l.head? = some z ∨ r.head? = some z
  | [], r, z => fun h => Or.inr (by rwa [mergeRuns_nil_left] at h)
  | a :: l, [], z => fun h => Or.inl (by rwa [mergeRuns_nil_right] at h)
  | a :: l, b :: r, z => by
    intro h
    rw [mergeRuns_cons_cons] at h
    by_cases hab : less a b = true
    · rw [if_pos hab] at h
      exact Or.inl h
    · rw [Bool.not_eq_true] at hab
      simp only [hab, Bool.false_eq_true, if_false] at h
      exact Or.inr h

theorem mergeRuns_chain {less : α → α → Bool} (hasym : Asym less) :
    ∀ l r : List α, List.Chain' (fun a b => less b a = false) l →
      List.Chain' (fun a b => less b a = false) r →
      List.Chain' (fun a b => less b a = false) (mergeRuns less l r)
  | [], r, _, hr => by rwa [mergeRuns_nil_left]
  | a :: l, r, hl, hr => by
    induction r with
    | nil => rwa [mergeRuns_nil_right]
    | cons b r ihr =>
      rw [mergeRuns_cons_cons]
      by_cases hab : less a b = true
      · rw [if_pos hab]
        refine List.chain'_cons'.mpr ⟨?_, ?_⟩
        · intro z hz
          rcases mergeRuns_head less l (b :: r) z hz with hzl | hzr
          · exact (List.chain'_cons'.mp hl).1 z hzl
          · simp only [List.head?] at hzr
            cases hzr
            exact hasym a b hab
        · exact mergeRuns_chain hasym l (b :: r) (List.chain'_cons'.mp hl).2 hr
      · rw [Bool.not_eq_true] at hab
        simp only [hab, Bool.false_eq_true, if_false]
        refine List.chain'_cons'.mpr ⟨?_, ?_⟩
        · intro z hz
          rcases mergeRuns_head less (a :: l) r z hz with hzl | hzr
          · simp only [List.head?] at hzl
            cases hzl
            exact hab
          · exact (List.chain'_cons'.mp hr).1 z hzr
        · exact ihr (List.chain'_cons'.mp hr).2

/-- With enough fuel (any amount at least the number of readers), the merge
tree over a nonempty reader list is built, and its stream is a permutation of
the concatenation of the readers' streams; if every reader's stream is
non-decreasing under an asymmetric comparator, so is the merged stream. -/
theorem newMergeReaderF_ok {less : α → α → Bool} (hasym : Asym less) :
    ∀ (fuel : Nat) (rs : List (List α)), rs ≠ [] → rs.length ≤ fuel →
      ∃ out, newMergeReaderF less fuel rs = some out ∧
        out.Perm rs.flatten ∧
        ((∀ r ∈ rs, List.Chain' (fun a b => less b a = false) r) →
          List.Chain' (fun a b => less b a = false) out) := by
  intro fuel
  induction fuel with
  | zero =>
    intro rs hne hlen
    exact absurd (List.length_eq_zero.mp (Nat.le_zero.mp hlen)) hne
  | succ fuel ih =>
    intro rs hne hlen
    rcases rs with _ | ⟨r0, _ | ⟨r1, _ | ⟨r2, rest⟩⟩⟩
    · exact absurd rfl hne
    · refine ⟨r0, rfl, ?_, ?_⟩
      · simp
      · intro hs
        exact hs r0 (List.mem_singleton.mpr rfl)
    · refine ⟨mergeRuns less r0 r1, rfl, ?_, ?_⟩
      · simpa using mergeRuns_perm less r0 r1
      · intro hs
        exact mergeRuns_chain hasym r0 r1 (hs r0 (by simp)) (hs r1 (by simp))
    · set rs := r0 :: r1 :: r2 :: rest with hrs
      have hlen3 : 3 ≤ rs.length := by simp [hrs]
      set n := rs.length / 2 with hn
      have hn1 : 1 ≤ n := by omega
      have hnlt : n < rs.length := by omega
      have htlen : (rs.take n).length = n := by
        rw [List.length_take]
        omega
      have hdlen : (rs.drop n).length = rs.length - n := by
        rw [List.length_drop]
      have htne : rs.take n ≠ [] := by
        intro h
        rw [h] at htlen
        simp only [List.length_nil] at htlen
        omega
      have hdne : rs.drop n ≠ [] := by
        intro h
        rw [h] at hdlen
        simp only [List.length_nil] at hdlen
        omega
      have hlen2 : rs.length ≤ fuel + 1 := hlen
      have htfuel : (rs.take n).length ≤ fuel := by
        rw [htlen]
        omega
      have hdfuel : (rs.drop n).length ≤ fuel := by
        rw [hdlen]
        omega
      obtain ⟨outl, hl, hpl, hsl⟩ := ih (rs.take n) htne htfuel
      obtain ⟨outr, hr, hpr, hsr⟩ := ih (rs.drop n) hdne hdfuel
      refine ⟨mergeRuns less outl outr, ?_, ?_, ?_⟩
      · show newMergeReaderF less (fuel + 1) rs = _
        rw [hrs]
        simp only [newMergeReaderF]
        rw [show (r0 :: r1 :: r2 :: rest).length / 2 = n from rfl]
        rw [← hrs, hl, hr]
      · refine (mergeRuns_perm less outl outr).trans ?_
        refine (hpl.append hpr).trans ?_
        rw [← List.flatten_append (rs.take n) (rs.drop n), List.take_append_drop]
      · intro hs
        refine mergeRuns_chain hasym outl outr ?_ ?_
        · exact hsl fun r hrmem => hs r (List.take_subset n rs hrmem)
        · exact hsr fun r hrmem => hs r (List.drop_subset n rs hrmem)

theorem truncAt_false : ∀ l : List α, truncAt (fun _ => false) l = l
  | [] => rfl
  | v :: rest => by
    simp only [truncAt, Bool.false_eq_true, if_false]
    rw [truncAt_false rest]

theorem map_truncAt_false (L : List (List α)) :
    L.map (truncAt (fun _ => false)) = L := by
  induction L with
  | nil => rfl
  | cons r rest ih => simp [truncAt_false, ih]

theorem firstErr_none {f : Nat → Option ε} (hf : ∀ k, f k = none) :
    ∀ (n k : Nat), firstErr f k n = none
  | 0, _ => rfl
  | n + 1, k => by
    simp only [firstErr, hf k]
    exact firstErr_none hf n (k + 1)

/-- Proof-side description of how the sort loop cuts the input into runs:
`splitChunks maxN input buf = (full runs, residual buffer)` when starting
from buffer content `buf`. -/
def splitChunks (maxN : Nat) : List α → List α → List (List α) × List α
  | [], buf => ([], buf)
  | v :: rest, buf =>
    if maxN ≤ (buf ++ [v]).length then
      ((buf ++ [v]) :: (splitChunks maxN rest []).1, (splitChunks maxN rest []).2)
    else
      splitChunks maxN rest (buf ++ [v])

theorem splitChunks_flatten (maxN : Nat) :
    ∀ input buf : List α,
      ((splitChunks maxN input buf).1).flatten ++ (splitChunks maxN input buf).2 =
        buf ++ input
  | [], buf => by simp [splitChunks]
  | v :: rest, buf => by
    simp only [splitChunks]
    by_cases h : maxN ≤ (buf ++ [v]).length
    · rw [if_pos h]
      simp only [List.flatten_cons, List.append_assoc]
      rw [splitChunks_flatten maxN rest []]
      simp
    · rw [if_neg h]
      rw [splitChunks_flatten maxN rest (buf ++ [v])]
      simp

theorem splitChunks_res_lt (maxN : Nat) (hmax : 1 ≤ maxN) :
    ∀ input buf : List α, buf.length < maxN →
      ((splitChunks maxN input buf).2).length < maxN
  | [], buf => fun h => h
  | v :: rest, buf => by
    intro hbuf
    simp only [splitChunks]
    by_cases h : maxN ≤ (buf ++ [v]).length
    · rw [if_pos h]
      exact splitChunks_res_lt maxN hmax rest [] (by simpa using hmax)
    · rw [if_neg h]
      exact splitChunks_res_lt maxN hmax rest (buf ++ [v]) (by omega)

theorem flushBuffer_ok {oc : Oracles ε}
    (htf : ∀ k, oc.tempFileErr k = none) (henc : ∀ k, oc.encodeErr k = none)
    (hcl : ∀ k, oc.encCloseErr k = none) (sp k : Nat) (buffer : List α) :
    flushBuffer (oc.tempFileErr sp) oc.encodeErr k (oc.encCloseErr sp) buffer =
      .ok () := by
  simp only [flushBuffer, htf sp, firstErr_none henc, hcl sp]

/-- When every spill-phase external call succeeds, the sort loop finishes
normally with no recorded error, the residual buffer described by
`splitChunks`, and one stably sorted spilled run per full chunk. -/
theorem sortSteps_ok_char (less : α → α → Bool) (maxN : Nat) (oc : Oracles ε)
    (htf : ∀ k, oc.tempFileErr k = none) (henc : ∀ k, oc.encodeErr k = none)
    (hcl : ∀ k, oc.encCloseErr k = none) :
    ∀ (input : List α) (st : SortSt ε α), st.errCell = none →
      ∃ enc sp, sortSteps less maxN oc input st =
        .ok { buf := (splitChunks maxN input st.buf).2
              files := st.files ++
                ((splitChunks maxN input st.buf).1).map (stableSort less)
              errCell := none
              encCalls := enc
              spills := sp }
  | [], st => by
    intro hcell
    refine ⟨st.encCalls, st.spills, ?_⟩
    simp only [sortSteps, splitChunks]
    congr 1
    cases st with
    | mk buf files errCell enc sp =>
      simp only at hcell
      simp [hcell]
  | v :: rest, st => by
    intro hcell
    simp only [sortSteps, hcell, Option.isSome_none, Bool.false_eq_true, if_false]
    by_cases h : maxN ≤ (st.buf ++ [v]).length
    · have hflush := flushBuffer_ok (α := α) htf henc hcl st.spills st.encCalls
        (stableSort less (st.buf ++ [v]))
      simp only [if_pos h, hflush]
      obtain ⟨enc, sp, heq⟩ := sortSteps_ok_char less maxN oc
        htf henc hcl rest
        { buf := []
          files := st.files ++ [stableSort less (st.buf ++ [v])]
          errCell := none
          encCalls := st.encCalls + (stableSort less (st.buf ++ [v])).length
          spills := st.spills + 1 }
        rfl
      refine ⟨enc, sp, ?_⟩
      rw [heq]
      simp only [splitChunks, if_pos h]
      congr 2
      simp [List.append_assoc]
    · simp only [if_neg h]
      obtain ⟨enc, sp, heq⟩ := sortSteps_ok_char less maxN oc
        htf henc hcl rest
        { buf := st.buf ++ [v]
          files := st.files
          errCell := none
          encCalls := st.encCalls
          spills := st.spills } rfl
      refine ⟨enc, sp, ?_⟩
      rw [heq]
      simp only [splitChunks, if_neg h]

theorem flatten_map_stableSort_perm (less : α → α → Bool) (L : List (List α)) :
    ((L.map (stableSort less)).flatten).Perm L.flatten := by
  induction L with
  | nil => exact List.Perm.refl _
  | cons r rest ih =>
    simp only [List.map_cons, List.flatten_cons]
    exact (stableSort_perm less r).append ih

/-- Main correctness of the all-collaborators-succeed session on a nonempty
input: the session completes, `Read` sees a record sequence followed by a
clean end of stream, and that sequence is a permutation of the input which is
non-decreasing under a strict-weak-order comparator. -/
theorem runSession_ok {less : α → α → Bool} (hswo : IsStrictWeakOrder less)
    (maxN : Nat) (input : List α) (hne : input ≠ []) :
    ∃ out, runSession (fun _ => false) less maxN (okOracles (ε := ε)) input =
        .ok (out, none) ∧ out.Perm input ∧
        List.Chain' (fun a b => less b a = false) out := by
  obtain ⟨enc, sp, hchar⟩ := sortSteps_ok_char less maxN (okOracles (ε := ε))
    (fun _ => rfl) (fun _ => rfl) (fun _ => rfl)
    input (initSt (okOracles (ε := ε))) rfl
  have hflat := splitChunks_flatten maxN input ([] : List α)
  rw [List.nil_append] at hflat
  set ch := (splitChunks maxN input ([] : List α)).1 with hch
  set res := (splitChunks maxN input ([] : List α)).2 with hres
  set R : List (List α) :=
    (if (stableSort less res).isEmpty then [] else [stableSort less res]) ++
      ch.map (stableSort less) with hR
  have hRflat : R.flatten.Perm input := by
    rw [hR]
    by_cases hempty : (stableSort less res).isEmpty
    · have hres0 : res = [] := by
        have hp := stableSort_perm less res
        rw [List.isEmpty_iff.mp hempty] at hp
        exact hp.symm.eq_nil
      rw [if_pos hempty, List.nil_append]
      refine (flatten_map_stableSort_perm less ch).trans ?_
      rw [← hflat, hres0, List.append_nil]
    · rw [if_neg hempty]
      simp only [List.singleton_append, List.flatten_cons]
      refine ((stableSort_perm less res).append
        (flatten_map_stableSort_perm less ch)).trans ?_
      refine (List.perm_append_comm).trans ?_
      rw [hflat]
  have hRne : R ≠ [] := by
    intro h0
    have : input = [] := by
      have := hRflat
      rw [h0] at this
      exact (this.symm.eq_nil)
    exact hne this
  have hRsorted : ∀ r ∈ R, List.Chain' (fun a b => less b a = false) r := by
    intro r hr
    rw [hR] at hr
    rcases List.mem_append.mp hr with hr | hr
    · by_cases hempty : (stableSort less res).isEmpty
      · rw [if_pos hempty] at hr
        exact absurd hr (List.not_mem_nil r)
      · rw [if_neg hempty] at hr
        rcases List.mem_singleton.mp hr with rfl
        exact stableSort_chain hswo.asym res
    · obtain ⟨c, _, rfl⟩ := List.mem_map.mp hr
      exact stableSort_chain hswo.asym c
  obtain ⟨out, hout, hperm, hchain⟩ :=
    newMergeReaderF_ok hswo.asym (R.length + 1) R hRne (Nat.le_succ _)
  refine ⟨out, ?_, hperm.trans hRflat, hchain hRsorted⟩
  rw [runSession, hchar]
  simp only [Option.isSome_none, Bool.false_eq_true, if_false, initSt, okOracles,
    List.nil_append]
  rw [map_truncAt_false]
  rw [firstErr_none (fun _ => rfl)]
  rw [← hch, ← hres, ← hR, hout]

/-- Once an error is recorded the sort loop only drains the input channel
(lines 111-114) and the state is left untouched. -/
theorem sortSteps_drain (less : α → α → Bool) (maxN : Nat) (oc : Oracles ε) :
    ∀ (input : List α) (st : SortSt ε α), st.errCell.isSome = true →
      sortSteps less maxN oc input st = .ok st
  | [], _ => fun _ => rfl
  | v :: rest, st => fun h => by
    simp only [sortSteps, h, if_true]
    exact sortSteps_drain less maxN oc rest st h

/-- If temp files are created fine but the very first `Encode` call of the
session fails with `e`, then as soon as the input forces one spill the sort
loop finishes with the wrapped codec error recorded. -/
theorem sortSteps_encodeFail (less : α → α → Bool) (maxN : Nat) (oc : Oracles ε)
    {e : ε} (htf : ∀ k, oc.tempFileErr k = none) (he0 : oc.encodeErr 0 = some e) :
    ∀ (input buf : List α) (files : List (List α)) (sp : Nat),
      buf.length < maxN → maxN ≤ buf.length + input.length →
      ∃ st, sortSteps less maxN oc input
          { buf := buf, files := files, errCell := none, encCalls := 0, spills := sp } =
            .ok st ∧ st.errCell = some (.codec e)
  | [], buf, files, sp => by
    intro h1 h2
    simp only [List.length_nil, Nat.add_zero] at h2
    exact absurd h1 (by omega)
  | v :: rest, buf, files, sp => by
    intro h1 h2
    simp only [sortSteps, Option.isSome_none, Bool.false_eq_true, if_false]
    by_cases h : maxN ≤ (buf ++ [v]).length
    · simp only [if_pos h]
      have hlen : (stableSort less (buf ++ [v])).length = buf.length + 1 := by
        rw [(stableSort_perm less (buf ++ [v])).length_eq]
        simp
      have hfb : flushBuffer (oc.tempFileErr sp) oc.encodeErr 0 (oc.encCloseErr sp)
          (stableSort less (buf ++ [v])) = .err (.codec e) := by
        simp only [flushBuffer, htf sp, hlen, firstErr, he0]
      rw [hfb]
      exact ⟨_, sortSteps_drain less maxN oc rest _ rfl, rfl⟩
    · simp only [if_neg h]
      refine sortSteps_encodeFail less maxN oc htf he0 rest (buf ++ [v]) files sp ?_ ?_
      · simp only [List.length_append, List.length_singleton]
        simp only [List.length_append, List.length_singleton] at h
        omega
      · simp only [List.length_append, List.length_singleton,
          List.length_cons] at h2 ⊢
        omega

/-- Session-level consequence of a failing first `Encode` call: the worker
records the wrapped codec error, skips the merge, and closes the output
channel empty, so the first `Read` returns that error (not a clean end of
stream, and no record at all is delivered). -/
theorem runSession_encodeFail {less : α → α → Bool} {maxN : Nat} {oc : Oracles ε}
    {e : ε} (isNil : α → Bool) (htd : oc.tempDirErr = none)
    (htf : ∀ k, oc.tempFileErr k = none) (he0 : oc.encodeErr 0 = some e)
    (input : List α) (hmax : 1 ≤ maxN) (hlen : maxN ≤ input.length) :
    runSession isNil less maxN oc input = .ok ([], some (.codec e)) := by
  obtain ⟨st, hst, hcell⟩ := sortSteps_encodeFail less maxN oc htf he0 input [] [] 0
    (by simpa using hmax) (by simpa using hlen)
  have hinit : (initSt oc : SortSt ε α) = SortSt.mk [] [] none 0 0 := by
    simp [initSt, htd]
  rw [runSession, hinit, hst]
  simp only [hcell, Option.isSome_some, if_true]

/-- When the whole input fits below the spill threshold the loop never
spills: no chunk is cut and the residue is the entire input. -/
theorem splitChunks_small (maxN : Nat) :
    ∀ (input buf : List α), buf.length + input.length < maxN →
      splitChunks maxN input buf = ([], buf ++ input)
  | [], buf => fun _ => by simp [splitChunks]
  | v :: rest, buf => fun h => by
    have hnot : ¬ maxN ≤ (buf ++ [v]).length := by
      simp only [List.length_append, List.length_singleton]
      simp only [List.length_cons] at h
      omega
    simp only [splitChunks, if_neg hnot]
    rw [splitChunks_small maxN rest (buf ++ [v]) (by
      simp only [List.length_append, List.length_singleton]
      simp only [List.length_cons] at h
      omega)]
    simp

theorem truncAt_length_lt {isNil : α → Bool} :
    ∀ l : List α, (∃ x ∈ l, isNil x = true) → (truncAt isNil l).length < l.length
  | [], h => by
    rcases h with ⟨x, hx, _⟩
    exact absurd hx (List.not_mem_nil x)
  | v :: rest, h => by
    simp only [truncAt]
    by_cases hv : isNil v = true
    · rw [if_pos hv]
      simp
    · rw [if_neg hv]
      simp only [List.length_cons]
      have hrest : ∃ x ∈ rest, isNil x = true := by
        rcases h with ⟨x, hx, hxnil⟩
        rcases List.mem_cons.mp hx with rfl | hx'
        · exact absurd hxnil hv
        · exact ⟨x, hx', hxnil⟩
      exact Nat.succ_lt_succ (truncAt_length_lt rest hrest)

/-- C1 (amended to nonempty inputs): for every nonempty finite input sequence
written before Close, every comparator that is a valid strict weak order and
every buffer threshold at least 1, the session delivers through `Read` a
sequence of records followed by a clean end-of-stream sentinel which is a
permutation of the input and non-decreasing under the comparator.  (The
original claim also covers the empty input, where the merge-tree construction
instead recurses forever — see the counterexample.) -/
theorem c1_sorted_permutation {α : Type} (less : α → α → Bool)
    (hswo : IsStrictWeakOrder less) (maxN : Nat) (input : List α)
    (hmax : 1 ≤ maxN) (hne : input ≠ []) :
    ∃ out, runSession (fun _ => false) less maxN (okOracles (ε := Unit)) input =
        .ok (out, none) ∧ out.Perm input ∧
        List.Chain' (fun a b => less b a = false) out :=
  runSession_ok hswo maxN input hne

/-- Witness for C1 at a concrete input: three naturals with the strict order
on Nat and threshold 2 (which forces one spill plus a residue). -/
theorem c1_witness :
    ∃ out, runSession (fun _ => false) (fun a b : Nat => decide (a < b)) 2
        (okOracles (ε := Unit)) [3, 1, 2] = .ok (out, none) ∧
        out.Perm [3, 1, 2] ∧
        List.Chain' (fun a b : Nat => decide (b < a) = false) out :=
  c1_sorted_permutation (fun a b : Nat => decide (a < b))
    ⟨fun a => by simp,
     fun a b c h1 h2 => by
       simp only [decide_eq_true_eq] at h1 h2 ⊢
       omega,
     fun a b c h1 h2 h3 h4 => by
       simp only [decide_eq_false_iff_not] at h1 h2 h3 h4 ⊢
       omega⟩
    2 [3, 1, 2] (by decide) (by decide)

/-- C1 counterexample to the original universal claim: on the empty input
(zero writes) the merge phase never terminates — the session diverges
instead of delivering the end-of-stream sentinel. -/
theorem c1_empty_input_counterexample :
    runSession (fun _ => false) (fun a b : Nat => decide (a < b)) 1
      (okOracles (ε := Unit)) [] = GoResult.diverged := rfl

set_option maxRecDepth 100000 in
/-- C2: evaluation of the session at the repo's own `TestSortStable`
scenario: 100 sequentially numbered records, threshold 3, a constant-false
comparator.  The delivered sequence is the spilled runs in reverse
chronological order followed by the buffer residue — it starts with record 96
— and is not the input order that stability (and the test) demand. -/
theorem c2_stability_failure :
    runSession (fun _ => false) (fun _ _ : Nat => false) 3 (okOracles (ε := Unit))
        (List.range 100) =
      .ok ((((List.range 33).reverse.map
          (fun k => [3 * k, 3 * k + 1, 3 * k + 2])).flatten ++ [99], none)) ∧
    (((List.range 33).reverse.map
        (fun k => [3 * k, 3 * k + 1, 3 * k + 2])).flatten ++ [99]) ≠
      List.range 100 := by
  constructor
  · decide
  · decide

/-- C3 counterexample: two tied records (equal keys, distinct payload tags),
one pending on each side of a merge step.  The merged stream emits the right
child's record first, not the left child's as the claim states. -/
theorem c3_tie_counterexample :
    mergeRuns (fun a b : Nat × Nat => decide (a.1 < b.1)) [(5, 0)] [(5, 1)] =
        [(5, 1), (5, 0)] ∧
    ([((5 : Nat), (1 : Nat)), (5, 0)] : List (Nat × Nat)) ≠ [(5, 0), (5, 1)] := by
  decide

/-- C3 (amended): in every two-way merge step, whenever the two pending
lookahead records tie (neither strictly less than the other), the RIGHT
child's pending record is emitted before the left child's pending record
(the code tests only `less(n0, n1)` and falls through to the right side
otherwise). -/
theorem c3_right_bias {α : Type} (less : α → α → Bool) (a b : α) (l r : List α)
    (hab : less a b = false) (hba : less b a = false) :
    mergeRuns less (a :: l) (b :: r) = b :: mergeRuns less (a :: l) r := by
  rw [mergeRuns_cons_cons, hab]
  simp

/-- Witness for C3 at a concrete tie. -/
theorem c3_witness :
    mergeRuns (fun _ _ : Nat => false) [1] [2] =
      2 :: mergeRuns (fun _ _ : Nat => false) [1] [] :=
  c3_right_bias (fun _ _ : Nat => false) 1 2 [] [] rfl rfl

/-- C4: a session with zero writes followed by Close never reaches the
end-of-stream sentinel: `newMergeReader` is called on an empty reader slice
and recurses on that same empty slice forever (`n = 0/2 = 0`), for every
amount of fuel, so the worker never closes the output channel and the first
`Read` blocks forever (in the real program: stack overflow) instead of
returning end-of-stream with no error. -/
theorem c4_empty_session_diverges :
    (∀ (less : Nat → Nat → Bool) (maxN : Nat),
        runSession (fun _ => false) less maxN (okOracles (ε := Unit)) [] =
          GoResult.diverged) ∧
    (∀ (less : Nat → Nat → Bool) (fuel : Nat),
        newMergeReaderF less fuel ([] : List (List Nat)) = none) := by
  constructor
  · intro less maxN
    rfl
  · intro less fuel
    induction fuel with
    | zero => rfl
    | succ fuel ih =>
      simp only [newMergeReaderF, List.take_nil, List.drop_nil, ih]

/-- C5: if the encoder's first `Encode` call fails during a spill (temporary
directory and file creation succeeding), the session records the wrapped
codec error, skips the merge, and closes the output channel empty: the first
`Read` returns that failure — neither a clean end of stream nor any record
produced after the fault point — and every `Sort` (Write) issued after the
error is recorded fails fast with that error without enqueueing the
record. -/
theorem c5_encode_failure_surfaces {α ε : Type} (less : α → α → Bool)
    (oc : Oracles ε) (e : ε) (htd : oc.tempDirErr = none)
    (htf : ∀ k, oc.tempFileErr k = none) (he0 : oc.encodeErr 0 = some e)
    (maxN : Nat) (input : List α) (hmax : 1 ≤ maxN) (hlen : maxN ≤ input.length) :
    runSession (fun _ => false) less maxN oc input =
        .ok ([], some (.codec e)) ∧
    ∀ (queued : List α) (v : α),
      sortCall (some (FsError.codec e)) queued v =
        (queued, some (FsError.codec e)) :=
  ⟨runSession_encodeFail (fun _ => false) htd htf he0 input hmax hlen,
   fun _ _ => rfl⟩

/-- Witness for C5: one record, threshold 1, an encoder whose first call
fails. -/
theorem c5_witness :
    runSession (fun _ => false) (fun a b : Nat => decide (a < b)) 1
        { tempDirErr := none
          tempFileErr := fun _ => none
          encodeErr := fun k => if k = 0 then some () else none
          encCloseErr := fun _ => none
          openErr := fun _ => none } [7] =
      .ok ([], some (.codec ())) ∧
    ∀ (queued : List Nat) (v : Nat),
      sortCall (some (FsError.codec ())) queued v =
        (queued, some (FsError.codec ())) :=
  c5_encode_failure_surfaces (fun a b : Nat => decide (a < b)) _ () rfl
    (fun _ => rfl) rfl 1 [7] (by decide) (by decide)

/-- C6: behaviour of the spill routine at each failure point.  An `Encode`
failure and an encoder `Close` failure are indeed returned as wrapped errors,
but a temporary-file creation failure is NOT reported as an error: line 137
reads `file.Name()` from the nil `*os.File` before line 138 checks the error,
so the spill panics (nil-pointer dereference) and the wrapped ResourceError
of line 139 is unreachable. -/
theorem c6_tempfile_failure_panics :
    flushBuffer (some ()) (fun _ => none) 0 none ([0] : List Nat) =
        GoResult.panicked ∧
    flushBuffer (none : Option Unit) (fun _ => some ()) 0 none ([0] : List Nat) =
        .err (.codec ()) ∧
    flushBuffer (none : Option Unit) (fun _ => none) 0 (some ()) ([0] : List Nat) =
        .err (.encClose ()) :=
  ⟨rfl, rfl, rfl⟩

/-- If the sort phase succeeds with at least one spill and opening the first
spill file fails during merge setup, the worker panics (`panic(err)` at
line 286), aborting the process. -/
theorem runSession_openFail {α ε : Type} (less : α → α → Bool)
    (oc : Oracles ε) (e : ε) (htd : oc.tempDirErr = none)
    (htf : ∀ k, oc.tempFileErr k = none) (henc : ∀ k, oc.encodeErr k = none)
    (hcl : ∀ k, oc.encCloseErr k = none) (hopen : oc.openErr 0 = some e)
    (maxN : Nat) (input : List α) (hmax : 1 ≤ maxN) (hlen : maxN ≤ input.length) :
    runSession (fun _ => false) less maxN oc input = GoResult.panicked := by
  obtain ⟨enc, sp, hchar⟩ := sortSteps_ok_char less maxN oc
    htf henc hcl input (initSt oc) (by simp [initSt, htd])
  have hres := splitChunks_res_lt maxN hmax input ([] : List α) (by simpa using hmax)
  have hflat := splitChunks_flatten maxN input ([] : List α)
  rw [List.nil_append] at hflat
  have hchne : (splitChunks maxN input ([] : List α)).1 ≠ [] := by
    intro h0
    rw [h0, List.flatten_nil, List.nil_append] at hflat
    rw [hflat] at hres
    omega
  obtain ⟨c, cs, hc⟩ := List.exists_cons_of_ne_nil hchne
  rw [runSession, hchar]
  simp only [Option.isSome_none, Bool.false_eq_true, if_false, initSt,
    List.nil_append]
  rw [hc]
  simp only [List.map_cons, List.length_cons, List.length_map, firstErr, hopen]

/-- C7 counterexample: a concrete session with one spilled run whose file
fails to open during merge-tree setup.  The session panics — the failure is
not propagated as a typed error value that `Read` could surface. -/
theorem c7_open_failure_counterexample :
    runSession (fun _ => false) (fun a b : Nat => decide (a < b)) 1
      { tempDirErr := none
        tempFileErr := fun _ => none
        encodeErr := fun _ => none
        encCloseErr := fun _ => none
        openErr := fun _ => some () } [5] = GoResult.panicked := by
  decide

/-- C7 (amended): if opening a spill file for a leaf reader fails during
merge setup, `merge` panics (`panic(err)`), killing the worker goroutine and
with it the process, instead of propagating the failure as a typed error
value to `Read`.  (Failures returned by child readers while the tree refills
its lookaheads do propagate as typed errors inside `newMergeReader`; the
file-open step happens before tree construction and does not.) -/
theorem c7_open_failure_panics {α ε : Type} (less : α → α → Bool)
    (oc : Oracles ε) (e : ε) (htd : oc.tempDirErr = none)
    (htf : ∀ k, oc.tempFileErr k = none) (henc : ∀ k, oc.encodeErr k = none)
    (hcl : ∀ k, oc.encCloseErr k = none) (hopen : oc.openErr 0 = some e)
    (maxN : Nat) (input : List α) (hmax : 1 ≤ maxN) (hlen : maxN ≤ input.length) :
    runSession (fun _ => false) less maxN oc input = GoResult.panicked :=
  runSession_openFail less oc e htd htf henc hcl hopen maxN input hmax hlen

/-- Witness for C7. -/
theorem c7_witness :
    runSession (fun _ => false) (fun _ _ : Nat => false) 2
      { tempDirErr := none
        tempFileErr := fun _ => none
        encodeErr := fun _ => none
        encCloseErr := fun _ => none
        openErr := fun _ => some () } [4, 6, 1] = GoResult.panicked :=
  c7_open_failure_panics (fun _ _ : Nat => false) _ () rfl (fun _ => rfl)
    (fun _ => rfl) (fun _ => rfl) rfl 2 [4, 6, 1] (by decide) (by decide)

/-- C8 counterexample: calling Close on a session whose input channel is
already closed panics (Go: close of a closed channel) — it does not leave
the session unchanged without failing. -/
theorem c8_double_close_counterexample : fsCloseM true = GoResult.panicked := rfl

/-- C8 (amended): the first Close succeeds, marks the input channel closed
and returns a nil error; but Close is not idempotent — a second Close panics
by closing an already-closed channel. -/
theorem c8_close_behavior :
    fsCloseM false = .ok (true, none) ∧ fsCloseM true = GoResult.panicked :=
  ⟨rfl, rfl⟩

/-- C9 counterexample: two records that the (constant-false) comparator ranks
equal.  With threshold 1 the session spills two one-record runs and the
right-biased merge emits them in reverse order; with threshold 3 everything
stays in the buffer and comes out in input order.  The sorted output depends
on the threshold. -/
theorem c9_threshold_counterexample :
    runSession (fun _ => false) (fun _ _ : Nat => false) 1 (okOracles (ε := Unit))
        [0, 1] = .ok ([1, 0], none) ∧
    runSession (fun _ => false) (fun _ _ : Nat => false) 3 (okOracles (ε := Unit))
        [0, 1] = .ok ([0, 1], none) ∧
    ([1, 0] : List Nat) ≠ [0, 1] := by
  decide

/-- C9 (amended): threshold independence holds for comparators under which
ties imply equality (in particular strict total orders): for such a strict
weak order the delivered output is the unique sorted permutation of the
input, hence identical for every pair of thresholds at least 1 — and on the
empty input every threshold equally diverges. -/
theorem c9_threshold_independence {α : Type} (less : α → α → Bool)
    (hswo : IsStrictWeakOrder less)
    (heq : ∀ a b, less a b = false → less b a = false → a = b)
    (t1 t2 : Nat) (ht1 : 1 ≤ t1) (ht2 : 1 ≤ t2) (input : List α) :
    runSession (fun _ => false) less t1 (okOracles (ε := Unit)) input =
      runSession (fun _ => false) less t2 (okOracles (ε := Unit)) input := by
  by_cases hne : input = []
  · subst hne
    rfl
  · obtain ⟨o1, h1, hp1, hc1⟩ := runSession_ok (ε := Unit) hswo t1 input hne
    obtain ⟨o2, h2, hp2, hc2⟩ := runSession_ok (ε := Unit) hswo t2 input hne
    rw [h1, h2]
    haveI : IsTrans α (fun a b => less b a = false) :=
      ⟨fun _ _ _ hab hbc => hswo.nle_trans hab hbc⟩
    haveI : IsAntisymm α (fun a b => less b a = false) :=
      ⟨fun a b hab hba => heq a b hba hab⟩
    have hs1 : List.Pairwise (fun a b => less b a = false) o1 :=
      List.chain'_iff_pairwise.mp hc1
    have hs2 : List.Pairwise (fun a b => less b a = false) o2 :=
      List.chain'_iff_pairwise.mp hc2
    have ho : o1 = o2 :=
      List.eq_of_perm_of_sorted (hp1.trans hp2.symm) hs1 hs2
    rw [ho]

/-- Witness for C9: same output for thresholds 1 and 5 on three records under
the strict order on Nat. -/
theorem c9_witness :
    runSession (fun _ => false) (fun a b : Nat => decide (a < b)) 1
        (okOracles (ε := Unit)) [3, 1, 2] =
      runSession (fun _ => false) (fun a b : Nat => decide (a < b)) 5
        (okOracles (ε := Unit)) [3, 1, 2] :=
  c9_threshold_independence (fun a b : Nat => decide (a < b))
    ⟨fun a => by simp,
     fun a b c h1 h2 => by
       simp only [decide_eq_true_eq] at h1 h2 ⊢
       omega,
     fun a b c h1 h2 h3 h4 => by
       simp only [decide_eq_false_iff_not] at h1 h2 h3 h4 ⊢
       omega⟩
    (fun a b h1 h2 => by
      simp only [decide_eq_false_iff_not] at h1 h2
      omega)
    1 5 (by decide) (by decide) [3, 1, 2]

/-- C10: the nil value is the end-of-stream sentinel internally as well as at
the public interface.  For an in-memory session (threshold above the input
length, so the stably sorted buffer is the single reader), if some written
record is the nil value then the merge loop stops at the first nil it pulls:
the delivered records are exactly the sorted buffer truncated at its first
nil, `Read` then reports a clean end of stream with no error, and the
remaining records are silently dropped (strictly fewer records than written
come out). -/
theorem c10_nil_sentinel {β : Type} (less : Option β → Option β → Bool)
    (hswo : IsStrictWeakOrder less) (maxN : Nat) (input : List (Option β))
    (hsmall : input.length < maxN) (hne : input ≠ []) (hnil : none ∈ input) :
    runSession Option.isNone less maxN (okOracles (ε := Unit)) input =
        .ok (truncAt Option.isNone (stableSort less input), none) ∧
    (truncAt Option.isNone (stableSort less input)).length < input.length := by
  obtain ⟨enc, sp, hchar⟩ := sortSteps_ok_char less maxN (okOracles (ε := Unit))
    (fun _ => rfl) (fun _ => rfl) (fun _ => rfl)
    input (initSt (okOracles (ε := Unit))) rfl
  have hsplit := splitChunks_small maxN input ([] : List (Option β))
    (by simpa using hsmall)
  have hlen : (stableSort less input).length = input.length :=
    (stableSort_perm less input).length_eq
  have hresne : stableSort less input ≠ [] := by
    intro h0
    rw [h0] at hlen
    exact hne (List.length_eq_zero.mp hlen.symm)
  have hnil2 : ∃ x ∈ stableSort less input, Option.isNone x = true :=
    ⟨none, (stableSort_perm less input).mem_iff.mpr hnil, rfl⟩
  constructor
  · rw [runSession, hchar]
    simp only [initSt, Option.map_none', List.nil_append]
    rw [hsplit]
    simp only [List.nil_append, List.map_nil, List.append_nil,
      Option.isSome_none, Bool.false_eq_true, if_false, List.length_nil]
    rw [if_neg (fun hcond => hresne (List.isEmpty_iff.mp hcond))]
    simp only [List.map_cons, List.map_nil, firstErr, List.length_cons,
      List.length_nil, newMergeReaderF]
  · rw [← hlen]
    exact truncAt_length_lt (stableSort less input) hnil2

/-- Witness for C10: an in-memory session (threshold 5 over three records)
whose second written record is nil — only the record sorted before the nil
comes out, then a clean end of stream. -/
theorem c10_witness :
    runSession Option.isNone (fun _ _ : Option Nat => false) 5
        (okOracles (ε := Unit)) [some 1, none, some 2] =
      .ok (truncAt Option.isNone
        (stableSort (fun _ _ : Option Nat => false) [some 1, none, some 2]), none) ∧
    (truncAt Option.isNone
      (stableSort (fun _ _ : Option Nat => false) [some 1, none, some 2])).length <
      ([some 1, none, some 2] : List (Option Nat)).length :=
  c10_nil_sentinel (fun _ _ : Option Nat => false)
    ⟨fun _ => rfl, fun _ _ _ h _ => h, fun _ _ _ _ _ _ _ => ⟨rfl, rfl⟩⟩
    5 [some 1, none, some 2] (by decide) (by decide) (by decide)

end FileSortGo
